import Mathlib

/-!
Verification of the shellmando repository (src/shellmando.py, src/microagent.py):
a shallow embedding in Lean 4 of the response-classification and
file-materialization pipeline, together with proofs and refutations of the
frozen specification claims.

Text is modelled as `List Char` (Python strings are sequences of code points;
`len` is the code-point count).  Python's `str.splitlines`, `str.strip`,
`str.rstrip` and `str.lower` are reproduced over that representation.
-/

namespace Shellmando

/-! ## Python character classes

`isPySpace` models the character set stripped by Python's `str.strip()` /
`str.rstrip()` (the characters for which `str.isspace()` holds).
`isLineBreak` models the line boundaries recognised by `str.splitlines()`
(with the two-character boundary `"\r\n"` handled separately in
`splitlinesAux`). -/

def isPySpace (c : Char) : Bool :=
  c == ' ' || c == '\t' || c == '\n' || c == '\r' || c == '\x0b' || c == '\x0c' ||
  c == '\x1c' || c == '\x1d' || c == '\x1e' || c == '\x1f' || c == '\x85' ||
  c == '\xa0' || c == ' ' || c == ' ' || c == ' ' || c == ' ' ||
  c == ' ' || c == ' ' || c == ' ' || c == ' ' || c == ' ' ||
  c == ' ' || c == ' ' || c == ' ' || c == ' ' || c == ' ' ||
  c == ' ' || c == ' ' || c == '　'

def isLineBreak (c : Char) : Bool :=
  c == '\n' || c == '\r' || c == '\x0b' || c == '\x0c' ||
  c == '\x1c' || c == '\x1d' || c == '\x1e' || c == '\x85' ||
  c == ' ' || c == ' '

/-- Python `str.lstrip()` (no argument): drop leading whitespace. -/
def lstrip (l : List Char) : List Char := l.dropWhile isPySpace

/-- Python `str.rstrip()` (no argument): drop trailing whitespace. -/
def rstrip (l : List Char) : List Char := (l.reverse.dropWhile isPySpace).reverse

/-- Python `str.strip()` (no argument): drop leading and trailing whitespace. -/
def pyStrip (l : List Char) : List Char := rstrip (lstrip l)

/-- Collapse every two-character boundary `"\r\n"` into a single `'\n'`,
scanning left to right: Python's `str.splitlines()` treats `"\r\n"` as one
line boundary, and after this normalization every boundary is a single
line-break character. -/
def normCRLF : List Char → List Char
  | [] => []
  | [c] => [c]
  | c1 :: c2 :: rest =>
      if c1 = '\r' ∧ c2 = '\n' then '\n' :: normCRLF rest
      else c1 :: normCRLF (c2 :: rest)

/-- Helper for `splitlines` on CRLF-normalized text: `acc` holds the current
line reversed; every line-break character ends a line, and a final
unterminated segment forms a last line only when nonempty. -/
def splitlinesAux : List Char → List Char → List (List Char)
  | [], acc => if acc = [] then [] else [acc.reverse]
  | c :: rest, acc =>
      if isLineBreak c then acc.reverse :: splitlinesAux rest []
      else splitlinesAux rest (c :: acc)

/-- Python `str.splitlines()`. -/
def splitlines (text : List Char) : List (List Char) :=
  splitlinesAux (normCRLF text) []

/-- Python `"\n".join(...)` over a list of lines. -/
def joinNL : List (List Char) → List Char
  | [] => []
  | [l] => l
  | l :: ls => l ++ '\n' :: joinNL ls

/-- The backquote character (code point 96), head of a markdown fence. -/
def backquote : Char := Char.ofNat 96

/-- A line whose `strip()`-ed form starts with a triple backquote:
models `line.strip().startswith("` ``` `")` in `strip_fences`. -/
def isFenceLine (l : List Char) : Bool :=
  [backquote, backquote, backquote].isPrefixOf (pyStrip l)

/-- Embedding of `strip_fences` (src/shellmando.py:398-409, identical in
src/microagent.py:230-241): drop every line whose stripped form begins with
a fence marker, right-trim the remaining lines, join with `"\n"`, and
`strip()` the joined result. -/
def strip_fences (text : List Char) : List Char :=
  pyStrip (joinNL (((splitlines text).filter (fun l => !(isFenceLine l))).map rstrip))

/-- Embedding of `is_oneliner` (src/shellmando.py:412-414):
`"\n" not in text and len(text) < 512`. -/
def is_oneliner (text : List Char) : Bool :=
  !(text.contains '\n') && decide (text.length < 512)

/-- Embedding of `is_oneliner` of src/microagent.py:244-246 (same body). -/
def microagent_is_oneliner (text : List Char) : Bool :=
  !(text.contains '\n') && decide (text.length < 512)

/-- The two classifier outcomes of the spec. -/
inductive Classification
  | OneLiner
  | Script
deriving DecidableEq

/-- The classification used at src/shellmando.py:872-886: take the one-liner
branch exactly when `is_oneliner` holds, else materialize a script. -/
def classify (text : List Char) : Classification :=
  if is_oneliner text then .OneLiner else .Script

/-! ## Label derivation (`find_label`, src/shellmando.py:437-459)

`ast.parse` / `ast.walk` are Python standard-library facilities, modelled
abstractly: the `parsed` argument is `none` when `ast.parse` raises a
`SyntaxError`, and `some names` with the `FunctionDef` / `ClassDef` names in
`ast.walk` order otherwise.  `curtime` stands for
`datetime.now(tz=timezone.utc).strftime("%H%M%S")`. -/

def find_label (parsed : Option (List String)) (initial_label : String)
    (curtime : String) : String :=
  let fallback := if initial_label = "script" then "script_" ++ curtime else initial_label
  match parsed with
  | some names =>
      let filtered := names.filter (fun n => n ≠ "main")
      match filtered.getLast? with
      | some n => n
      | none => fallback
  | none => fallback

/-! ## Mode / extension maps -/

/-- Embedding of `_get_mapping` (src/shellmando.py:417-424), in source order. -/
def get_mapping : List (String × String) :=
  [("python", ".py"), ("bash", ".sh"), ("sh", ".sh"), ("zsh", ".zsh"), ("fish", ".fish")]

/-- Embedding of `extension_for_mode` (src/shellmando.py:427-428):
`_get_mapping().get(mode, ".txt")` (keys of `get_mapping` are distinct). -/
def extension_for_mode (mode : String) : String :=
  ((get_mapping.find? (fun p => p.1 == mode)).map (fun p => p.2)).getD ".txt"

/-- Lookup in a Python dict built by assigning the pairs in list order:
a later assignment to the same key overwrites an earlier one, so the
search runs over the reversed list. -/
def dictLastWins (pairs : List (String × String)) (k : String) : Option String :=
  (pairs.reverse.find? (fun p => p.1 == k)).map (fun p => p.2)

/-- ASCII lowering of one character, the fragment of Python `str.lower()`
relevant to the extensions in `get_mapping`. -/
def asciiLowerChar (c : Char) : Char :=
  if 'A' ≤ c && c ≤ 'Z' then Char.ofNat (c.toNat + 32) else c

/-- ASCII `str.lower()` on a string. -/
def pyLower (s : String) : String := String.mk (s.data.map asciiLowerChar)

/-- Embedding of `mode_from_extension` (src/shellmando.py:431-434): invert
`get_mapping` by a dict comprehension (later entries overwrite earlier ones)
and look up the lower-cased suffix. -/
def mode_from_extension (suffix : String) : Option String :=
  dictLastWins (get_mapping.map (fun p => (p.2, p.1))) (pyLower suffix)

/-- Embedding of the mode resolution at src/shellmando.py:749-752: a detected
extension mode overrides the `--mode` flag (a non-`None` Python string from
`mode_from_extension` is never empty, hence truthy). -/
def resolve_mode (flag_mode : Option String) (suffix : String) : Option String :=
  match mode_from_extension suffix with
  | some d => some d
  | none => flag_mode

/-! ## Script materialization (`save_script`, src/shellmando.py:462-489) -/

/-- Decimal digits of `n`, most significant first, computed with structural
fuel (`fuel ≥ n` suffices); models Python's decimal rendering of an int. -/
def natReprAux : Nat → Nat → List Char
  | 0, _ => []
  | fuel + 1, n => if n = 0 then [] else natReprAux fuel (n / 10) ++ [Nat.digitChar (n % 10)]

/-- Python `str(n)` for a natural number. -/
def natRepr (n : Nat) : List Char := if n = 0 then ['0'] else natReprAux n n

/-- The candidate filename tried at index `idx` in `save_script`'s collision
loop: `f"{label}{suffix}{ext}"` with `suffix = f"_{idx}" if idx else ""`. -/
def candidateName (label : List Char) (idx : Nat) (ext : List Char) : List Char :=
  label ++ (if idx = 0 then [] else '_' :: natRepr idx) ++ ext

/-- The collision loop of `save_script` (src/shellmando.py:477-484), run with
explicit fuel: starting from `idx`, return the first index whose candidate
name is not among `files` (the names already present in the date folder).
`save_script` calls it with fuel `files.length + 1`, which always suffices
(`chooseIdx_spec`). -/
def chooseIdxGo (files : List (List Char)) (label ext : List Char) :
    Nat → Nat → Nat
  | 0, idx => idx
  | fuel + 1, idx =>
      if candidateName label idx ext ∈ files then chooseIdxGo files label ext fuel (idx + 1)
      else idx

/-- The index `save_script`'s loop settles on. -/
def chooseIdx (files : List (List Char)) (label ext : List Char) : Nat :=
  chooseIdxGo files label ext (files.length + 1) 0

/-- The filename `save_script` writes, as a function of the names already in
the target date folder, the derived label, and the mode's extension. -/
def save_script_name (files : List (List Char)) (label ext : List Char) : List Char :=
  candidateName label (chooseIdx files label ext) ext

/-! ## Permissions after saving (src/shellmando.py:486-487) -/

/-- Embedding of `SHELL_MODES` (src/shellmando.py:82). -/
def SHELL_MODES : List String := ["bash", "sh", "zsh", "fish"]

/-- Embedding of the chmod step after `save_script` writes the file:
`if make_executable and mode in SHELL_MODES: candidate.chmod(candidate.stat().st_mode | 0o755)`.
`st_mode` is the file's permission mode before the call. -/
def chmod_after_save (mode : String) (make_executable : Bool) (st_mode : Nat) : Nat :=
  if make_executable && SHELL_MODES.contains mode then st_mode ||| 0o755 else st_mode

/-- Modelled from the spec's words for claim C9 ("exactly the
owner/group/other execute bits added by logical OR"): OR with `0o111` for
shell modes, unchanged otherwise.  Used only to exhibit the divergence from
`chmod_after_save`. -/
def spec_exec_bits_only (mode : String) (st_mode : Nat) : Nat :=
  if SHELL_MODES.contains mode then st_mode ||| 0o111 else st_mode

/-! ## Retry temperature (src/shellmando.py:850-854)

Python floats are IEEE-754 binary64.  Every finite binary64 value is a
dyadic rational m·2^e with |m| < 2^53, modelled exactly by `Dyadic`; a
decimal literal in the source denotes the nearest binary64 value
(`doubleOfDecimal`, round to nearest, ties to even), subtraction rounds the
exact difference back to 53 significant bits (`fsub`), and comparison of
binary64 values is exact comparison of the represented rationals
(`Dyadic.gt`, see `Dyadic.gt_iff`).  Overflow and subnormal underflow are
not modelled: every value arising in the retry-temperature computation lies
far inside the normal range.  All integer arithmetic is executable, so
concrete evaluations reduce in the kernel. -/

/-- A dyadic rational m·2^e.  Finite IEEE binary64 values are exactly the
dyadics with |m| < 2^53 (and bounded exponent); the model computes with
this exact representation. -/
structure Dyadic where
  m : ℤ
  e : ℤ
deriving DecidableEq

/-- The exact rational value represented by a dyadic number. -/
def Dyadic.toRat (d : Dyadic) : ℚ := (d.m : ℚ) * (2 : ℚ) ^ d.e

/-- Bit length of a natural number, with structural fuel (`fuel ≥ n`
suffices) so concrete values reduce in the kernel. -/
def bitLenAux : Nat → Nat → Nat
  | 0, _ => 0
  | fuel + 1, n => if n = 0 then 0 else bitLenAux fuel (n / 2) + 1

/-- Bit length: `bitLen n = ⌊log2 n⌋ + 1` for `n > 0`, and `0` for `0`. -/
def bitLen (n : Nat) : Nat := bitLenAux n n

/-- Round the fraction n / d (d > 0) to the nearest natural number, ties to
even — the IEEE-754 default rounding on the significand. -/
def natRoundHalfEven (n d : Nat) : Nat :=
  let q := n / d
  let r := n % d
  if 2 * r < d then q
  else if d < 2 * r then q + 1
  else if q % 2 = 0 then q else q + 1

/-- Round the positive fraction n / d to 53 significant bits: returns
(mantissa, ulp exponent) with the mantissa normalized into [2^52, 2^53)
(the first candidate exponent from the bit lengths is corrected when the
rounded mantissa falls outside that interval). -/
def round53Pos (n d : Nat) : Nat × ℤ :=
  let e0 : ℤ := (bitLen n : ℤ) - (bitLen d : ℤ) - 52
  let scaled : ℤ → Nat := fun e =>
    if 0 ≤ e then natRoundHalfEven n (d * 2 ^ e.toNat)
    else natRoundHalfEven (n * 2 ^ (-e).toNat) d
  let m0 := scaled e0
  if m0 < 2 ^ 52 then (scaled (e0 - 1), e0 - 1)
  else if 2 ^ 53 ≤ m0 then (scaled (e0 + 1), e0 + 1)
  else (m0, e0)

/-- The binary64 value nearest to the positive fraction n / d. -/
def doubleOfPos (n d : Nat) : Dyadic :=
  ⟨((round53Pos n d).1 : ℤ), (round53Pos n d).2⟩

/-- The binary64 value denoted by the decimal literal num·10^(-pow10) in
the Python source: `0.2` is `doubleOfDecimal 2 1`, `0.15` is
`doubleOfDecimal 15 2`, and so on. -/
def doubleOfDecimal (num pow10 : Nat) : Dyadic :=
  if num = 0 then ⟨0, 0⟩ else doubleOfPos num (10 ^ pow10)

/-- Exact difference of two dyadics, on the common (smaller) exponent. -/
def Dyadic.subExact (a b : Dyadic) : Dyadic :=
  let e := if a.e ≤ b.e then a.e else b.e
  ⟨a.m * 2 ^ (a.e - e).toNat - b.m * 2 ^ (b.e - e).toNat, e⟩

/-- Round a dyadic to 53 significant bits, ties to even: the IEEE rounding
applied to an exact intermediate result. -/
def round53 (d : Dyadic) : Dyadic :=
  if d.m = 0 then ⟨0, 0⟩
  else
    let n := d.m.natAbs
    let sgn : ℤ := if 0 ≤ d.m then 1 else -1
    let b := bitLen n
    if b ≤ 53 then d
    else
      let shift := b - 53
      ⟨sgn * (natRoundHalfEven n (2 ^ shift) : ℤ), d.e + (shift : ℤ)⟩

/-- IEEE binary64 subtraction of exactly-represented values: the exact
difference rounded to the nearest representable value (ties to even). -/
def fsub (a b : Dyadic) : Dyadic := round53 (a.subExact b)

/-- IEEE binary64 comparison `a > b`: exact comparison of the represented
rational values, computed on the common exponent. -/
def Dyadic.gt (a b : Dyadic) : Bool :=
  let e := if a.e ≤ b.e then a.e else b.e
  decide (b.m * 2 ^ (b.e - e).toNat < a.m * 2 ^ (a.e - e).toNat)

/-- Embedding of
`new_temp = args.temperature - 0.1 if args.temperature > 0.2 else args.temperature - 0.01`
(src/shellmando.py:853), in binary64 arithmetic: the literals denote the
binary64 values nearest 0.2, 0.1 and 0.01, and the subtraction rounds. -/
def retry_temperature (t : Dyadic) : Dyadic :=
  if t.gt (doubleOfDecimal 2 1) then fsub t (doubleOfDecimal 1 1)
  else fsub t (doubleOfDecimal 1 2)

/-- Embedding of the re-invocation argument list
`main([*argv, "-t", str(new_temp)])`. -/
def retry_argv (argv : List String) (new_temp_str : String) : List String :=
  argv ++ ["-t", new_temp_str]

/-! ## Edit/Append workflow (src/shellmando.py:822-855) -/

/-- The accepted-commit test at src/shellmando.py:841-843:
`choice = input(...).strip()` followed by
`choice == "y" or choice == "Y" or choice == "J" or choice == ""`. -/
def choice_commits (raw : String) : Bool :=
  let choice := pyStrip raw.toList
  choice == "y".toList || choice == "Y".toList || choice == "J".toList || choice == []

/-- The two file operations: the edit flag (-e) and the append flag (-a). -/
inductive FileOp
  | edit
  | append
deriving DecidableEq

/-- Content of the target file right after the mutate step
(src/shellmando.py:826-836).  For `edit`, the cleaned reply plus a trailing
newline.  For `append`, the original content, a newline when the original is
nonempty and unterminated, then `"\n" + cleaned + "\n"` (opening with mode
`"a"` creates an absent file, so the absent case behaves as empty content). -/
def new_target_content (op : FileOp) (file_content cleaned : List Char) : List Char :=
  match op with
  | .edit => cleaned ++ ['\n']
  | .append =>
      file_content ++
        (if file_content ≠ [] ∧ file_content.getLast? ≠ some '\n' then ['\n'] else []) ++
        '\n' :: cleaned ++ ['\n']

/-- Final on-disk state of the edit/append workflow: the target file's
content and the `.bak` file's content (`none` when no backup file exists). -/
structure EditOutcome where
  target : List Char
  backup : Option (List Char)
deriving DecidableEq

/-- Embedding of the file-operation branch of `main`
(src/shellmando.py:822-855).  `original` is the target's content, `none` when
the target file does not exist (then `file_content = ""`,
src/shellmando.py:745-748).  The backup is created only when the target
exists; `display_diff` (line 837) unconditionally reads the backup file, so a
missing backup raises `FileNotFoundError` and the invocation fails.  On a
commit the backup is left on disk; on a revert the target is restored from
the backup and the backup is removed (`os.remove` + `shutil.move`). -/
def edit_workflow (op : FileOp) (original : Option (List Char)) (cleaned : List Char)
    (choice : String) : Except String EditOutcome :=
  let file_content := original.getD []
  let backup := original
  let newContent := new_target_content op file_content cleaned
  match backup with
  | none => .error "FileNotFoundError: display_diff reads the absent backup file"
  | some b =>
      if choice_commits choice then .ok ⟨newContent, some b⟩
      else .ok ⟨b, none⟩

/-! ## Availability manager (src/shellmando.py:222-265)

`health_check` performs HTTP probes; its results are supplied as oracles:
`initial` is the result of the first `health_check(host)` call (the pair
`(running, llama_server)`), and `polls` lists the results of the
`health_check(host, timeout=1.0)` calls the deadline loop has time for (one
entry per iteration with `time.monotonic() < deadline`). -/

/-- Python truthiness of the 2-tuple returned by `health_check`: a nonempty
tuple is always truthy, whatever the booleans inside — this is exactly how
line 259 `if health_check(host, timeout=1.0):` evaluates the call. -/
def tuple_truthy (_probe : Bool × Bool) : Bool := true

/-- The polling loop of `ensure_llm_running` (src/shellmando.py:258-262):
on the first iteration whose condition is truthy, return
`(True, llama_server)` with the stale `llama_server` from the initial probe;
when the deadline elapses, return `(False, False)`. -/
def poll_loop (llama_server : Bool) : List (Bool × Bool) → Bool × Bool
  | [] => (false, false)
  | probe :: rest =>
      if tuple_truthy probe then (true, llama_server) else poll_loop llama_server rest

/-- Embedding of `ensure_llm_running` (src/shellmando.py:236-265). -/
def ensure_llm_running (initial : Bool × Bool) (starter : Option String)
    (polls : List (Bool × Bool)) : Bool × Bool :=
  if initial.1 then initial
  else
    match starter with
    | none => (false, false)
    | some _ => poll_loop initial.2 polls

/-! ## Spec-side description of `clean` for claim C4 -/

/-- Modelled from the spec's words for claim C4's second conjunct ("an input
containing no fence lines is returned with each line right-trimmed and
surrounding blank lines stripped but otherwise unchanged"): right-trim every
line, drop leading and trailing blank lines, join.  Used only to exhibit the
divergence from `strip_fences`. -/
def clean_spec_trimmed (text : List Char) : List Char :=
  let trimmed := (splitlines text).map rstrip
  joinNL ((trimmed.dropWhile (fun l => l = [])).reverse.dropWhile (fun l => l = []) |>.reverse)

/-! ## Proof-support definitions for the fence-stripping analysis -/

/-- No line-break character occurs in `l` (lines produced by `splitlines`
satisfy this). -/
def noBreaks (l : List Char) : Prop := ∀ c ∈ l, isLineBreak c = false

/-- Drop trailing empty lines: the effect of `rstrip` on a newline-joined
list of right-stripped lines. -/
def dropTrailingBlank (ls : List (List Char)) : List (List Char) :=
  (ls.reverse.dropWhile (fun l => l.isEmpty)).reverse

/-- Drop leading all-whitespace lines and left-strip the first remaining
line: the effect of `lstrip` on a newline-joined list of lines. -/
def lstripLines (ls : List (List Char)) : List (List Char) :=
  match ls.dropWhile (fun l => l.all isPySpace) with
  | [] => []
  | l :: rest => lstrip l :: rest

/-! ## Claim C1: classification boundary -/

/-- Claim C1: `classify` returns `OneLiner` exactly when the text contains no
newline character and its length is strictly less than 512; any text
containing a newline or of length at least 512 is classified `Script`.  Both
source files define the same `is_oneliner` predicate. -/
theorem C1_classification_boundary :
    ∀ text : List Char,
      (classify text = Classification.OneLiner ↔ '\n' ∉ text ∧ text.length < 512) ∧
      (classify text = Classification.Script ↔ '\n' ∈ text ∨ 512 ≤ text.length) ∧
      microagent_is_oneliner text = is_oneliner text := by
  intro text
  have key : is_oneliner text = true ↔ '\n' ∉ text ∧ text.length < 512 := by
    simp [is_oneliner]
  refine ⟨?_, ?_, rfl⟩ <;> unfold classify <;> split <;> rename_i h
  · exact iff_of_true rfl (key.mp h)
  · exact iff_of_false (by simp) (fun hc => h (key.mpr hc))
  · refine iff_of_false (by simp) ?_
    obtain ⟨h1, h2⟩ := key.mp h
    rintro (hc | hc)
    · exact h1 hc
    · omega
  · refine iff_of_true rfl ?_
    by_cases hm : '\n' ∈ text
    · exact Or.inl hm
    · refine Or.inr ?_
      by_contra hlen
      exact h (key.mpr ⟨hm, by omega⟩)

/-! ## Claim C2: label derivation -/

/-- Claim C2: when the content parses, the label is the last function or
class name in walk order after excluding every definition named "main"; on a
syntax error or when no qualifying name remains, the label is
`script_<HHMMSS>` when the caller's label was the default "script" and the
caller-supplied label unchanged otherwise; content
`def helper(): ...\ndef main(): ...` (walk names `["helper", "main"]`)
yields label `helper`. -/
theorem C2_label_derivation :
    ∀ (names : List String) (initial curtime : String),
      (∀ last, (names.filter (fun n => n ≠ "main")).getLast? = some last →
        find_label (some names) initial curtime = last) ∧
      ((names.filter (fun n => n ≠ "main")) = [] →
        find_label (some names) "script" curtime = "script_" ++ curtime ∧
        (initial ≠ "script" → find_label (some names) initial curtime = initial)) ∧
      find_label none "script" curtime = "script_" ++ curtime ∧
      (initial ≠ "script" → find_label none initial curtime = initial) ∧
      find_label (some ["helper", "main"]) "script" curtime = "helper" := by
  intro names initial curtime
  refine ⟨?_, ?_, ?_, ?_, ?_⟩
  · intro last h
    unfold find_label
    simp only [h]
  · intro h
    unfold find_label
    simp only [h, List.getLast?_nil]
    exact ⟨by simp, fun hne => by simp [hne]⟩
  · simp [find_label]
  · intro hne; simp [find_label, hne]
  · rfl

/-- Witness for claim C2's theorem at concrete inputs. -/
theorem C2_label_derivation_witness :
    find_label (some ["helper", "main"]) "script" "101010" = "helper" ∧
    find_label none "mylabel" "101010" = "mylabel" ∧
    find_label (some ["main"]) "script" "101010" = "script_" ++ "101010" :=
  ⟨(C2_label_derivation ["helper", "main"] "mylabel" "101010").2.2.2.2,
   (C2_label_derivation [] "mylabel" "101010").2.2.2.1 (by decide),
   ((C2_label_derivation ["main"] "mylabel" "101010").2.1 (by decide)).1⟩

/-! ## Claim C3: filename non-collision -/

theorem natReprAux_eq_digits :
    ∀ fuel n, n ≤ fuel →
      natReprAux fuel n = ((Nat.digits 10 n).map Nat.digitChar).reverse := by
  intro fuel
  induction fuel with
  | zero =>
      intro n hn
      have : n = 0 := by omega
      subst this
      simp [natReprAux]
  | succ f ih =>
      intro n hn
      by_cases h0 : n = 0
      · subst h0; simp [natReprAux]
      · have hdiv : n / 10 ≤ f := by
          have := Nat.div_lt_self (Nat.pos_of_ne_zero h0) (by norm_num : 1 < 10)
          omega
        rw [natReprAux, if_neg h0, ih _ hdiv,
          Nat.digits_def' (by norm_num : (1 : ℕ) < 10) (Nat.pos_of_ne_zero h0)]
        simp

theorem digitChar_inj_lt :
    ∀ a < 10, ∀ b < 10, Nat.digitChar a = Nat.digitChar b → a = b := by decide

theorem map_digitChar_inj :
    ∀ ds es : List Nat, (∀ d ∈ ds, d < 10) → (∀ e ∈ es, e < 10) →
      ds.map Nat.digitChar = es.map Nat.digitChar → ds = es := by
  intro ds
  induction ds with
  | nil => intro es _ _ h; cases es <;> simp_all
  | cons d ds ih =>
      intro es hd he h
      cases es with
      | nil => simp_all
      | cons e es =>
          simp only [List.map_cons, List.cons.injEq] at h
          have hde : d = e :=
            digitChar_inj_lt d (hd d (by simp)) e (he e (by simp)) h.1
          subst hde
          rw [ih es (fun x hx => hd x (by simp [hx])) (fun x hx => he x (by simp [hx])) h.2]

theorem natRepr_injective : ∀ m n : Nat, natRepr m = natRepr n → m = n := by
  have digits_lt : ∀ k : Nat, ∀ d ∈ Nat.digits 10 k, d < 10 := fun k d hd =>
    Nat.digits_lt_base (by norm_num) hd
  have repr_pos : ∀ k : Nat, k ≠ 0 →
      natRepr k = ((Nat.digits 10 k).map Nat.digitChar).reverse := by
    intro k hk
    unfold natRepr
    rw [if_neg hk, natReprAux_eq_digits k k le_rfl]
  have zero_case : ∀ k : Nat, k ≠ 0 → natRepr k ≠ natRepr 0 := by
    intro k hk h
    rw [repr_pos k hk] at h
    have h' : (Nat.digits 10 k).map Nat.digitChar = ['0'] := by
      have := congrArg List.reverse h
      simpa [natRepr] using this
    match hds : Nat.digits 10 k with
    | [] => rw [hds] at h'; simp at h'
    | d :: ds =>
        rw [hds] at h'
        simp only [List.map_cons, List.cons.injEq] at h'
        have hds0 : ds = [] := by
          have := h'.2
          cases ds <;> simp_all
        have hd10 : d < 10 := digits_lt k d (by rw [hds]; simp)
        have hd0 : d = 0 :=
          digitChar_inj_lt d hd10 0 (by norm_num) (by simpa using h'.1)
        have : k = 0 := by
          have := Nat.ofDigits_digits 10 k
          rw [hds, hds0, hd0] at this
          simpa [Nat.ofDigits] using this.symm
        exact hk this
  intro m n h
  by_cases hm : m = 0 <;> by_cases hn : n = 0
  · omega
  · subst hm; exact absurd h.symm (zero_case n hn)
  · subst hn; exact absurd h (zero_case m hm)
  · rw [repr_pos m hm, repr_pos n hn] at h
    have h' := List.reverse_injective h
    have := map_digitChar_inj _ _ (digits_lt m) (digits_lt n) h'
    calc m = Nat.ofDigits 10 (Nat.digits 10 m) := (Nat.ofDigits_digits 10 m).symm
    _ = Nat.ofDigits 10 (Nat.digits 10 n) := by rw [this]
    _ = n := Nat.ofDigits_digits 10 n

theorem candidateName_injective (label ext : List Char) :
    ∀ i j, candidateName label i ext = candidateName label j ext → i = j := by
  intro i j h
  unfold candidateName at h
  have h1 : (if i = 0 then [] else '_' :: natRepr i) =
      (if j = 0 then [] else '_' :: natRepr j) :=
    List.append_cancel_left (List.append_cancel_right h)
  by_cases hi : i = 0 <;> by_cases hj : j = 0
  · omega
  · rw [if_pos hi, if_neg hj] at h1; simp at h1
  · rw [if_neg hi, if_pos hj] at h1; simp at h1
  · rw [if_neg hi, if_neg hj] at h1
    exact natRepr_injective i j (List.cons.injEq .. ▸ h1).2

theorem chooseIdxGo_mem (files : List (List Char)) (label ext : List Char) :
    ∀ fuel idx k, idx ≤ k → k < chooseIdxGo files label ext fuel idx →
      candidateName label k ext ∈ files := by
  intro fuel
  induction fuel with
  | zero => intro idx k h1 h2; rw [chooseIdxGo] at h2; omega
  | succ f ih =>
      intro idx k h1 h2
      rw [chooseIdxGo] at h2
      by_cases hm : candidateName label idx ext ∈ files
      · rw [if_pos hm] at h2
        rcases Nat.eq_or_lt_of_le h1 with rfl | hlt
        · exact hm
        · exact ih (idx + 1) k hlt h2
      · rw [if_neg hm] at h2; omega

theorem chooseIdxGo_le (files : List (List Char)) (label ext : List Char) :
    ∀ fuel idx, chooseIdxGo files label ext fuel idx ≤ idx + fuel := by
  intro fuel
  induction fuel with
  | zero => intro idx; rw [chooseIdxGo]; omega
  | succ f ih =>
      intro idx
      rw [chooseIdxGo]
      split
      · have := ih (idx + 1); omega
      · omega

theorem chooseIdxGo_free (files : List (List Char)) (label ext : List Char) :
    ∀ fuel idx, chooseIdxGo files label ext fuel idx < idx + fuel →
      candidateName label (chooseIdxGo files label ext fuel idx) ext ∉ files := by
  intro fuel
  induction fuel with
  | zero => intro idx h; rw [chooseIdxGo] at *; omega
  | succ f ih =>
      intro idx h
      rw [chooseIdxGo] at *
      by_cases hm : candidateName label idx ext ∈ files
      · rw [if_pos hm] at *
        exact ih (idx + 1) (by omega)
      · rw [if_neg hm] at *
        exact hm

theorem chooseIdx_not_mem (files : List (List Char)) (label ext : List Char) :
    save_script_name files label ext ∉ files := by
  unfold save_script_name chooseIdx
  set n := files.length with hn
  by_cases hr : chooseIdxGo files label ext (n + 1) 0 < n + 1
  · exact chooseIdxGo_free files label ext (n + 1) 0 (by omega)
  · exfalso
    have hle := chooseIdxGo_le files label ext (n + 1) 0
    have hreq : chooseIdxGo files label ext (n + 1) 0 = n + 1 := by omega
    have hmem : ∀ k ∈ List.range (n + 1), candidateName label k ext ∈ files := by
      intro k hk
      rw [List.mem_range] at hk
      exact chooseIdxGo_mem files label ext (n + 1) 0 k (Nat.zero_le k) (by omega)
    have hnodup : ((List.range (n + 1)).map (fun k => candidateName label k ext)).Nodup :=
      (List.nodup_range (n + 1)).map_on
        (fun x _ y _ hxy => candidateName_injective label ext x y hxy)
    have hsub : ((List.range (n + 1)).map (fun k => candidateName label k ext)).toFinset ⊆
        files.toFinset := by
      intro x hx
      rw [List.mem_toFinset] at hx ⊢
      rw [List.mem_map] at hx
      obtain ⟨k, hk, rfl⟩ := hx
      exact hmem k hk
    have hcard1 : ((List.range (n + 1)).map (fun k => candidateName label k ext)).toFinset.card
        = n + 1 := by
      rw [List.toFinset_card_of_nodup hnodup, List.length_map, List.length_range]
    have hcard2 := Finset.card_le_card hsub
    have hcard3 := List.toFinset_card_le files
    omega

theorem chooseIdx_min (files : List (List Char)) (label ext : List Char) :
    ∀ j, candidateName label j ext ∉ files → chooseIdx files label ext ≤ j := by
  intro j hj
  by_contra hlt
  push_neg at hlt
  exact hj (chooseIdxGo_mem files label ext (files.length + 1) 0 j (Nat.zero_le j) hlt)

/-- Claim C3: `save_script` never overwrites an existing file — the chosen
name is never among the existing names, and it carries the first free suffix
(the chosen index is minimal among the free ones, index 0 meaning no
suffix); concretely, with `foo.sh` present a save with derived label `foo`
in shell mode (extension `.sh`) produces `foo_1.sh`, and with both present
`foo_2.sh`. -/
theorem C3_filename_non_collision :
    (∀ (files : List (List Char)) (label ext : List Char),
      save_script_name files label ext ∉ files ∧
      (∀ j, candidateName label j ext ∉ files → chooseIdx files label ext ≤ j)) ∧
    extension_for_mode "bash" = ".sh" ∧ extension_for_mode "sh" = ".sh" ∧
    save_script_name [] "foo".toList ".sh".toList = "foo.sh".toList ∧
    save_script_name ["foo.sh".toList] "foo".toList ".sh".toList = "foo_1.sh".toList ∧
    save_script_name ["foo.sh".toList, "foo_1.sh".toList] "foo".toList ".sh".toList
      = "foo_2.sh".toList := by
  refine ⟨fun files label ext => ⟨chooseIdx_not_mem files label ext,
    chooseIdx_min files label ext⟩, ?_, ?_, ?_, ?_, ?_⟩ <;> decide

/-- Witness for claim C3's theorem at concrete inputs. -/
theorem C3_filename_non_collision_witness :
    save_script_name ["foo.sh".toList] "foo".toList ".sh".toList ∉ ["foo.sh".toList] ∧
    candidateName "foo".toList 5 ".sh".toList ∉ ["foo.sh".toList] ∧
    chooseIdx ["foo.sh".toList] "foo".toList ".sh".toList ≤ 5 :=
  ⟨(C3_filename_non_collision.1 ["foo.sh".toList] "foo".toList ".sh".toList).1,
   by decide,
   (C3_filename_non_collision.1 ["foo.sh".toList] "foo".toList ".sh".toList).2 5 (by decide)⟩

/-! ## Claim C5: availability manager polling -/

/-- Claim C5 (code bug): with the initial probe failed and a bootstrap
command configured, `ensure_llm_running` reports `(True, False)` on the very
first poll iteration even when every health probe fails, because
`if health_check(host, timeout=1.0):` tests the truthiness of the returned
2-tuple, and a nonempty tuple is always truthy.  The deadline/timeout branch
is only reached when the deadline allows no poll iteration at all. -/
theorem C5_bootstrap_poll_bug :
    (∀ (starter : String) (failing_probe : Bool × Bool) (later : List (Bool × Bool)),
      ensure_llm_running (false, false) (some starter) (failing_probe :: later)
        = (true, false)) ∧
    ensure_llm_running (false, false) (some "start-llm.sh") [(false, false)]
      = (true, false) ∧
    ensure_llm_running (false, false) none [] = (false, false) := by
  refine ⟨fun starter p later => ?_, by decide, by decide⟩
  simp [ensure_llm_running, poll_loop, tuple_truthy]

/-! ## Claim C6: temperature decay on retry

Bridge lemmas first: the dyadic comparison and exact subtraction agree with
the represented rational values, so the binary64 model is about the values
the Python program computes. -/

theorem Dyadic.toRat_align (x : Dyadic) (e : ℤ) (he : e ≤ x.e) :
    x.toRat = ((x.m * 2 ^ (x.e - e).toNat : ℤ) : ℚ) * (2 : ℚ) ^ e := by
  unfold Dyadic.toRat
  push_cast
  rw [← zpow_natCast (2 : ℚ) ((x.e - e).toNat), Int.toNat_of_nonneg (by omega), mul_assoc,
    ← zpow_add₀ (two_ne_zero : (2 : ℚ) ≠ 0), sub_add_cancel]

theorem Dyadic.toRat_subExact (a b : Dyadic) :
    (a.subExact b).toRat = a.toRat - b.toRat := by
  simp only [Dyadic.subExact]
  by_cases hab : a.e ≤ b.e
  · rw [if_pos hab, a.toRat_align a.e le_rfl, b.toRat_align a.e hab]
    show ((_ : ℤ) : ℚ) * _ = _
    push_cast
    ring
  · rw [if_neg hab, a.toRat_align b.e (by omega), b.toRat_align b.e le_rfl]
    show ((_ : ℤ) : ℚ) * _ = _
    push_cast
    ring

theorem Dyadic.gt_iff (a b : Dyadic) : a.gt b = true ↔ b.toRat < a.toRat := by
  simp only [Dyadic.gt, decide_eq_true_eq]
  by_cases hab : a.e ≤ b.e
  · rw [if_pos hab, a.toRat_align a.e le_rfl, b.toRat_align a.e hab,
      mul_lt_mul_right (show (0 : ℚ) < 2 ^ a.e from by positivity), Int.cast_lt]
  · rw [if_neg hab, a.toRat_align b.e (by omega), b.toRat_align b.e le_rfl,
      mul_lt_mul_right (show (0 : ℚ) < 2 ^ b.e from by positivity), Int.cast_lt]

/-- Claim C6 counterexample: the claim asserts the new temperature is never
negative and that retrying from 0.15 yields 0.14; but retrying from
temperature 0 yields the negative value -0.01, and in binary64 arithmetic
0.15 - 0.01 is 0.13999999999999999, one ulp below the double nearest 0.14,
so the value 0.14 is never produced. -/
theorem C6_counterexample :
    (retry_temperature (doubleOfDecimal 0 1)).toRat < 0 ∧
    (retry_temperature (doubleOfDecimal 15 2)).toRat ≠ (doubleOfDecimal 14 2).toRat := by
  have h0 : retry_temperature (doubleOfDecimal 0 1) = ⟨-5764607523034235, -59⟩ := by decide
  have h15 : retry_temperature (doubleOfDecimal 15 2) = ⟨5044031582654955, -55⟩ := by decide
  have h14 : doubleOfDecimal 14 2 = ⟨5044031582654956, -55⟩ := by decide
  rw [h0, h15, h14]
  constructor <;> norm_num [Dyadic.toRat]

/-- Claim C6 (amended): after a revert, an affirmative retry response
re-invokes the pipeline with the original argument list plus an overridden
temperature computed in IEEE binary64: decreased by double 0.1 when the
current temperature exceeds double 0.2 (the comparison being exact on the
represented values), otherwise by double 0.01.  Retrying from 0.5 yields
exactly the double 0.4; retrying from 0.15 yields 5044031582654955/2^55
(printed 0.13999999999999999), one ulp below the double nearest 0.14; and
the result can be negative: temperature 0 yields -0.01. -/
theorem C6_temperature_decay_amended :
    (∀ t : Dyadic, t.gt (doubleOfDecimal 2 1) = true →
      retry_temperature t = fsub t (doubleOfDecimal 1 1)) ∧
    (∀ t : Dyadic, t.gt (doubleOfDecimal 2 1) = false →
      retry_temperature t = fsub t (doubleOfDecimal 1 2)) ∧
    (∀ t : Dyadic, t.gt (doubleOfDecimal 2 1) = true ↔
      (doubleOfDecimal 2 1).toRat < t.toRat) ∧
    retry_temperature (doubleOfDecimal 5 1) = doubleOfDecimal 4 1 ∧
    (retry_temperature (doubleOfDecimal 15 2)).toRat = 5044031582654955 / 2 ^ 55 ∧
    (doubleOfDecimal 14 2).toRat = 5044031582654956 / 2 ^ 55 ∧
    (retry_temperature (doubleOfDecimal 0 1)).toRat = -(doubleOfDecimal 1 2).toRat ∧
    (∀ (argv : List String) (tstr : String), retry_argv argv tstr = argv ++ ["-t", tstr]) := by
  refine ⟨fun t ht => ?_, fun t ht => ?_, fun t => Dyadic.gt_iff t (doubleOfDecimal 2 1),
    by decide, ?_, ?_, ?_, fun argv tstr => rfl⟩
  · unfold retry_temperature
    rw [if_pos ht]
  · unfold retry_temperature
    rw [if_neg (by simp [ht])]
  · rw [show retry_temperature (doubleOfDecimal 15 2) = ⟨5044031582654955, -55⟩ from by decide]
    norm_num [Dyadic.toRat]
  · rw [show doubleOfDecimal 14 2 = ⟨5044031582654956, -55⟩ from by decide]
    norm_num [Dyadic.toRat]
  · rw [show retry_temperature (doubleOfDecimal 0 1) = ⟨-5764607523034235, -59⟩ from by decide,
      show doubleOfDecimal 1 2 = ⟨5764607523034235, -59⟩ from by decide]
    norm_num [Dyadic.toRat]

/-- Witness for claim C6's amended theorem at concrete inputs: 0.5 exceeds
the 0.2 threshold and takes the 0.1-decrement branch; 0.15 does not and
takes the 0.01-decrement branch. -/
theorem C6_temperature_decay_amended_witness :
    retry_temperature (doubleOfDecimal 5 1) =
      fsub (doubleOfDecimal 5 1) (doubleOfDecimal 1 1) ∧
    retry_temperature (doubleOfDecimal 15 2) =
      fsub (doubleOfDecimal 15 2) (doubleOfDecimal 1 2) ∧
    ((doubleOfDecimal 2 1).toRat < (doubleOfDecimal 5 1).toRat ↔
      Dyadic.gt (doubleOfDecimal 5 1) (doubleOfDecimal 2 1) = true) :=
  ⟨C6_temperature_decay_amended.1 (doubleOfDecimal 5 1) (by decide),
   C6_temperature_decay_amended.2.1 (doubleOfDecimal 15 2) (by decide),
   (C6_temperature_decay_amended.2.2.1 (doubleOfDecimal 5 1)).symm⟩

/-! ## Claim C7: confirm step commit/revert -/

/-- Claim C7 counterexample: the commit test is not closed under case: the
response "J" commits while its lower-case form "j" reverts, and "yes" also
reverts, so it is false that every case-insensitive yes-family token
commits. -/
theorem C7_counterexample :
    choice_commits "J" = true ∧ choice_commits "j" = false ∧
    pyLower "J" = pyLower "j" ∧ choice_commits "yes" = false := by decide

/-- Claim C7 (amended): at the confirm step, a response that strips to
exactly `""`, `"y"`, `"Y"` or `"J"` commits (the target keeps the new
content, the backup stays on disk); every other response restores the target
byte-for-byte from the backup and removes the backup file. -/
theorem C7_confirm_commit_revert_amended :
    ∀ (op : FileOp) (orig cleaned : List Char) (choice : String),
      (choice_commits choice = true →
        edit_workflow op (some orig) cleaned choice =
          .ok ⟨new_target_content op orig cleaned, some orig⟩) ∧
      (choice_commits choice = false →
        edit_workflow op (some orig) cleaned choice = .ok ⟨orig, none⟩) ∧
      (choice_commits choice = true ↔
        pyStrip choice.toList ∈ [['y'], ['Y'], ['J'], ([] : List Char)]) := by
  intro op orig cleaned choice
  refine ⟨fun h => ?_, fun h => ?_, ?_⟩
  · simp [edit_workflow, h]
  · simp [edit_workflow, h]
  · simp only [choice_commits]
    simp only [List.mem_cons, List.not_mem_nil, or_false, Bool.or_eq_true, beq_iff_eq]
    tauto

/-- Witness for claim C7's amended theorem: original content "A", cleaned
reply "B"; answering "n" restores "A" and removes the backup, an empty
answer commits. -/
theorem C7_confirm_commit_revert_amended_witness :
    edit_workflow .edit (some "A".toList) "B".toList "n" = .ok ⟨"A".toList, none⟩ ∧
    edit_workflow .edit (some "A".toList) "B".toList "" =
      .ok ⟨new_target_content .edit "A".toList "B".toList, some "A".toList⟩ :=
  ⟨(C7_confirm_commit_revert_amended .edit "A".toList "B".toList "n").2.1 (by decide),
   (C7_confirm_commit_revert_amended .edit "A".toList "B".toList "").1 (by decide)⟩

/-! ## Claim C8: absent target file -/

/-- Claim C8 (code bug): when the target file of an edit/append invocation
does not exist, no backup is created, and `display_diff` unconditionally
reads the backup file, so the workflow raises `FileNotFoundError` and fails
instead of completing the diff-display and confirm steps. -/
theorem C8_missing_target_crash :
    ∀ (op : FileOp) (cleaned : List Char) (choice : String),
      edit_workflow op none cleaned choice =
        .error "FileNotFoundError: display_diff reads the absent backup file" := by
  intro op cleaned choice
  rfl

/-! ## Claim C9: executable bits -/

/-- Claim C9 counterexample: the code ORs `0o755` — not just the execute bits
`0o111` — onto the existing mode: starting from mode `0o600` it produces
`0o755`, while adding exactly the execute bits would produce `0o711`. -/
theorem C9_counterexample :
    chmod_after_save "bash" true 0o600 = 0o755 ∧
    spec_exec_bits_only "bash" 0o600 = 0o711 ∧
    chmod_after_save "bash" true 0o600 ≠ spec_exec_bits_only "bash" 0o600 := by decide

/-- Claim C9 (amended): after `save_script` writes the file, shell-family
modes get `0o755` (owner read/write/execute, group and other read/execute)
added by logical OR on top of the file's existing permission mode — which
sets the execute bits but also read bits for group/other and owner
read/write — and non-shell modes leave the permission mode unchanged. -/
theorem C9_executable_bits_amended :
    ∀ st_mode : Nat,
      chmod_after_save "bash" true st_mode = st_mode ||| 0o755 ∧
      chmod_after_save "sh" true st_mode = st_mode ||| 0o755 ∧
      chmod_after_save "zsh" true st_mode = st_mode ||| 0o755 ∧
      chmod_after_save "fish" true st_mode = st_mode ||| 0o755 ∧
      chmod_after_save "python" true st_mode = st_mode ∧
      chmod_after_save "none" true st_mode = st_mode := by
  intro st_mode
  exact ⟨rfl, rfl, rfl, rfl, rfl, rfl⟩

/-! ## Claim C10: extension-to-mode resolution -/

/-- Claim C10: a target file whose suffix lower-cases to ".sh" resolves to
mode "sh", never "bash", overriding any mode flag; the inverted
extension-to-mode map (later dict assignments win) never yields "bash" for
any suffix. -/
theorem C10_extension_mode_sh_wins :
    (∀ suffix : String, pyLower suffix = ".sh" → mode_from_extension suffix = some "sh") ∧
    (∀ (suffix : String) (flag : Option String), pyLower suffix = ".sh" →
      resolve_mode flag suffix = some "sh") ∧
    (∀ (suffix m : String), mode_from_extension suffix = some m → m ≠ "bash") := by
  have hsh : ∀ suffix : String, pyLower suffix = ".sh" →
      mode_from_extension suffix = some "sh" := by
    intro suffix h
    unfold mode_from_extension
    rw [h]
    rfl
  refine ⟨hsh, fun suffix flag h => ?_, fun suffix m h hm => ?_⟩
  · unfold resolve_mode
    rw [hsh suffix h]
  · subst hm
    have hrev : ((get_mapping.map fun p => (p.2, p.1)).reverse) =
        [(".fish", "fish"), (".zsh", "zsh"), (".sh", "sh"), (".sh", "bash"),
         (".py", "python")] := rfl
    unfold mode_from_extension dictLastWins at h
    rw [hrev] at h
    simp only [Option.map_eq_some'] at h
    obtain ⟨p, hp, hp2⟩ := h
    simp only [List.find?] at hp
    split at hp
    · simp only [Option.some.injEq] at hp; subst hp; simp at hp2
    · split at hp
      · simp only [Option.some.injEq] at hp; subst hp; simp at hp2
      · split at hp
        · simp only [Option.some.injEq] at hp; subst hp; simp at hp2
        · split at hp
          · simp_all
          · split at hp
            · simp only [Option.some.injEq] at hp; subst hp; simp at hp2
            · simp_all

/-- Witness for claim C10's theorem at concrete inputs. -/
theorem C10_extension_mode_sh_wins_witness :
    mode_from_extension ".SH" = some "sh" ∧
    resolve_mode (some "bash") ".Sh" = some "sh" :=
  ⟨C10_extension_mode_sh_wins.1 ".SH" (by decide),
   C10_extension_mode_sh_wins.2.1 ".Sh" (some "bash") (by decide)⟩

/-! ## Claim C4: fence stripping — infrastructure

Step lemmas for `splitlinesAux`, and elementary facts about `lstrip`,
`rstrip` and `joinNL`. -/

theorem splitlinesAux_nil (acc : List Char) :
    splitlinesAux [] acc = if acc = [] then [] else [acc.reverse] := rfl

theorem splitlinesAux_break (c : Char) (rest acc : List Char)
    (hb : isLineBreak c = true) :
    splitlinesAux (c :: rest) acc = acc.reverse :: splitlinesAux rest [] := by
  simp only [splitlinesAux]
  rw [if_pos hb]

theorem splitlinesAux_nobreak (c : Char) (rest acc : List Char)
    (hb : isLineBreak c = false) :
    splitlinesAux (c :: rest) acc = splitlinesAux rest (c :: acc) := by
  simp only [splitlinesAux]
  rw [if_neg (by simp [hb])]

theorem normCRLF_no_cr : ∀ l : List Char, (∀ c ∈ l, c ≠ '\r') → normCRLF l = l := by
  intro l
  induction l with
  | nil => intro _; rfl
  | cons c t ih =>
      intro h
      cases t with
      | nil => rfl
      | cons c2 rest =>
          simp only [normCRLF]
          rw [if_neg (fun hh => h c (by simp) hh.1),
            ih (fun x hx => h x (by simp [hx]))]

theorem mem_joinNL :
    ∀ (ls : List (List Char)) (c : Char), c ∈ joinNL ls → c = '\n' ∨ ∃ l ∈ ls, c ∈ l := by
  intro ls
  induction ls with
  | nil => intro c h; simp [joinNL] at h
  | cons l ls ih =>
      intro c h
      cases ls with
      | nil =>
          right
          exact ⟨l, by simp, by simpa [joinNL] using h⟩
      | cons l2 ls2 =>
          simp only [joinNL] at h
          rw [List.mem_append] at h
          rcases h with h | h
          · right; exact ⟨l, by simp, h⟩
          · rcases List.mem_cons.mp h with rfl | h
            · left; rfl
            · rcases ih c h with h | ⟨l', hl', hc⟩
              · left; exact h
              · right; exact ⟨l', by simp [hl'], hc⟩

theorem dropWhile_dropWhile {α : Type} (p : α → Bool) (l : List α) :
    (l.dropWhile p).dropWhile p = l.dropWhile p := by
  induction l with
  | nil => rfl
  | cons a l ih =>
      rw [List.dropWhile_cons]
      split
      · exact ih
      · rename_i h; rw [List.dropWhile_cons, if_neg h]

theorem dropWhile_eq_self_head {α : Type} (p : α → Bool) (l : List α) :
    l.dropWhile p = l ↔ ∀ a, l.head? = some a → p a = false := by
  cases l with
  | nil => simp [List.dropWhile]
  | cons b t =>
      rw [List.dropWhile_cons]
      constructor
      · intro h a ha
        have hb : p b = false := by
          by_cases hb : p b = true
          · exfalso
            rw [if_pos hb] at h
            have hlen := congrArg List.length h
            have hle := (List.dropWhile_sublist (l := t) p).length_le
            simp only [List.length_cons] at hlen
            omega
          · simpa using hb
        simp only [List.head?_cons, Option.some.injEq] at ha
        rwa [← ha]
      · intro h
        rw [if_neg (by simp [h b rfl])]

theorem lstrip_idem (l : List Char) : lstrip (lstrip l) = lstrip l :=
  dropWhile_dropWhile isPySpace l

theorem rstrip_idem (l : List Char) : rstrip (rstrip l) = rstrip l := by
  unfold rstrip
  rw [List.reverse_reverse, dropWhile_dropWhile]

theorem mem_of_mem_lstrip {c : Char} {l : List Char} (h : c ∈ lstrip l) : c ∈ l :=
  List.Sublist.mem h (List.dropWhile_sublist isPySpace)

theorem mem_of_mem_rstrip {c : Char} {l : List Char} (h : c ∈ rstrip l) : c ∈ l := by
  unfold rstrip at h
  rw [List.mem_reverse] at h
  exact List.mem_reverse.mp (List.Sublist.mem h (List.dropWhile_sublist isPySpace))

theorem rstrip_eq_self_iff (l : List Char) :
    rstrip l = l ↔ ∀ c, l.getLast? = some c → isPySpace c = false := by
  unfold rstrip
  constructor
  · intro h c hc
    have h' : l.reverse.dropWhile isPySpace = l.reverse :=
      List.reverse_injective (by rwa [List.reverse_reverse])
    exact (dropWhile_eq_self_head _ _).mp h' c (by rwa [List.head?_reverse])
  · intro h
    have h' : l.reverse.dropWhile isPySpace = l.reverse :=
      (dropWhile_eq_self_head _ _).mpr (fun a ha => h a (by rwa [List.head?_reverse] at ha))
    rw [h', List.reverse_reverse]

theorem lstrip_eq_self_iff (l : List Char) :
    lstrip l = l ↔ ∀ c, l.head? = some c → isPySpace c = false :=
  dropWhile_eq_self_head isPySpace l

theorem rstrip_eq_nil_iff (l : List Char) :
    rstrip l = [] ↔ ∀ c ∈ l, isPySpace c = true := by
  unfold rstrip
  rw [List.reverse_eq_nil_iff, List.dropWhile_eq_nil_iff]
  constructor <;> intro h c hc
  · exact h c (List.mem_reverse.mpr hc)
  · exact h c (List.mem_reverse.mp hc)

theorem lstrip_eq_nil_iff (l : List Char) :
    lstrip l = [] ↔ ∀ c ∈ l, isPySpace c = true :=
  List.dropWhile_eq_nil_iff

theorem rstrip_cons (c : Char) (t : List Char) :
    rstrip (c :: t) =
      if rstrip t = [] then (if isPySpace c then [] else [c]) else c :: rstrip t := by
  have hnil : rstrip t = [] ↔ t.reverse.dropWhile isPySpace = [] := by
    unfold rstrip
    rw [List.reverse_eq_nil_iff]
  by_cases h : rstrip t = []
  · rw [if_pos h]
    show ((c :: t).reverse.dropWhile isPySpace).reverse = _
    rw [List.reverse_cons, List.dropWhile_append, if_pos (by simp [hnil.mp h])]
    by_cases hc : isPySpace c
    · simp [List.dropWhile_cons, hc]
    · simp [List.dropWhile_cons, hc]
  · rw [if_neg h]
    show ((c :: t).reverse.dropWhile isPySpace).reverse = _
    rw [List.reverse_cons, List.dropWhile_append,
      if_neg (fun hh => h (hnil.mpr (List.isEmpty_iff.mp hh))), List.reverse_append]
    simp [rstrip]

theorem lstrip_rstrip_comm (l : List Char) : lstrip (rstrip l) = rstrip (lstrip l) := by
  induction l with
  | nil => rfl
  | cons c t ih =>
      by_cases hc : isPySpace c
      · have hl : lstrip (c :: t) = lstrip t := by
          unfold lstrip; rw [List.dropWhile_cons, if_pos hc]
        rw [hl, ← ih, rstrip_cons]
        by_cases ht : rstrip t = []
        · rw [if_pos ht, if_pos hc, ht]
        · rw [if_neg ht]
          unfold lstrip
          rw [List.dropWhile_cons, if_pos hc]
      · have hl : lstrip (c :: t) = c :: t := by
          unfold lstrip; rw [List.dropWhile_cons, if_neg (by simp [hc])]
        rw [hl, rstrip_cons]
        by_cases ht : rstrip t = []
        · rw [if_pos ht, if_neg hc]
          unfold lstrip
          rw [List.dropWhile_cons, if_neg (by simp [hc])]
        · rw [if_neg ht]
          unfold lstrip
          rw [List.dropWhile_cons, if_neg (by simp [hc])]

theorem pyStrip_lstrip (l : List Char) : pyStrip (lstrip l) = pyStrip l := by
  unfold pyStrip
  rw [lstrip_idem]

theorem pyStrip_rstrip (l : List Char) : pyStrip (rstrip l) = pyStrip l := by
  unfold pyStrip
  rw [← lstrip_rstrip_comm, ← lstrip_rstrip_comm, rstrip_idem]

theorem pyStrip_idem (l : List Char) : pyStrip (pyStrip l) = pyStrip l := by
  show pyStrip (rstrip (lstrip l)) = pyStrip l
  rw [pyStrip_rstrip, pyStrip_lstrip]

theorem isFenceLine_rstrip (l : List Char) : isFenceLine (rstrip l) = isFenceLine l := by
  unfold isFenceLine
  rw [pyStrip_rstrip]

theorem isFenceLine_lstrip (l : List Char) : isFenceLine (lstrip l) = isFenceLine l := by
  unfold isFenceLine
  rw [pyStrip_lstrip]

theorem rstrip_lstrip_of_rstripped {l : List Char} (h : rstrip l = l) :
    rstrip (lstrip l) = lstrip l := by
  rw [← lstrip_rstrip_comm, h]

theorem joinNL_cons (l : List Char) (ls : List (List Char)) (h : ls ≠ []) :
    joinNL (l :: ls) = l ++ '\n' :: joinNL ls := by
  cases ls with
  | nil => exact absurd rfl h
  | cons l2 ls2 => rfl

theorem joinNL_concat (ls : List (List Char)) (l : List Char) (h : ls ≠ []) :
    joinNL (ls ++ [l]) = joinNL ls ++ '\n' :: l := by
  induction ls with
  | nil => exact absurd rfl h
  | cons l0 ls0 ih =>
      cases ls0 with
      | nil => rfl
      | cons l1 ls1 =>
          rw [List.cons_append, joinNL_cons l0 ((l1 :: ls1) ++ [l]) (by simp),
            ih (by simp), joinNL_cons l0 (l1 :: ls1) (by simp)]
          simp

theorem splitlinesAux_append_line :
    ∀ l t acc : List Char, noBreaks l →
      splitlinesAux (l ++ '\n' :: t) acc = (acc.reverse ++ l) :: splitlinesAux t [] := by
  intro l
  induction l with
  | nil =>
      intro t acc _
      rw [List.nil_append,
        splitlinesAux_break '\n' t acc (by decide), List.append_nil]
  | cons c l' ih =>
      intro t acc hnb
      rw [List.cons_append,
        splitlinesAux_nobreak c (l' ++ '\n' :: t) acc (hnb c (by simp)),
        ih t (c :: acc) (fun x hx => hnb x (by simp [hx]))]
      simp

theorem splitlinesAux_noBreak_all :
    ∀ l acc : List Char, noBreaks l →
      splitlinesAux l acc = if acc = [] ∧ l = [] then [] else [acc.reverse ++ l] := by
  intro l
  induction l with
  | nil =>
      intro acc _
      rw [splitlinesAux_nil]
      by_cases h : acc = [] <;> simp [h]
  | cons c l' ih =>
      intro acc hnb
      rw [splitlinesAux_nobreak c l' acc (hnb c (by simp)),
        ih (c :: acc) (fun x hx => hnb x (by simp [hx]))]
      simp

theorem splitlinesAux_joinNL :
    ∀ ls : List (List Char), (∀ l ∈ ls, noBreaks l) → ls.getLast? ≠ some [] →
      splitlinesAux (joinNL ls) [] = ls := by
  intro ls
  induction ls with
  | nil => intro _ _; rfl
  | cons l ls0 ih =>
      intro hnb hlast
      cases ls0 with
      | nil =>
          have hl : l ≠ [] := fun h => hlast (by simp [h])
          show splitlinesAux (joinNL [l]) [] = [l]
          rw [show joinNL [l] = l from rfl,
            splitlinesAux_noBreak_all l [] (hnb l (by simp))]
          simp [hl]
      | cons l1 ls1 =>
          rw [joinNL_cons l (l1 :: ls1) (by simp),
            splitlinesAux_append_line l (joinNL (l1 :: ls1)) [] (hnb l (by simp)),
            ih (fun x hx => hnb x (by simp [hx]))
              (by rwa [List.getLast?_cons_cons] at hlast)]
          simp

theorem no_cr_of_noBreak_lines (ls : List (List Char)) (hnb : ∀ l ∈ ls, noBreaks l) :
    ∀ c ∈ joinNL ls, c ≠ '\r' := by
  intro c hc hcr
  subst hcr
  rcases mem_joinNL ls '\r' hc with h | ⟨l, hl, hmem⟩
  · exact absurd h (by decide)
  · exact absurd (hnb l hl '\r' hmem) (by decide)

theorem splitlines_joinNL (ls : List (List Char)) (hnb : ∀ l ∈ ls, noBreaks l)
    (hlast : ls.getLast? ≠ some []) : splitlines (joinNL ls) = ls := by
  unfold splitlines
  rw [normCRLF_no_cr (joinNL ls) (no_cr_of_noBreak_lines ls hnb)]
  exact splitlinesAux_joinNL ls hnb hlast

theorem splitlinesAux_noBreaks :
    ∀ t acc : List Char, (∀ c ∈ acc, isLineBreak c = false) →
      ∀ l ∈ splitlinesAux t acc, noBreaks l := by
  intro t
  induction t with
  | nil =>
      intro acc hacc l hl
      rw [splitlinesAux_nil] at hl
      split at hl
      · simp at hl
      · simp only [List.mem_singleton] at hl
        subst hl
        exact fun c hc => hacc c (List.mem_reverse.mp hc)
  | cons c rest ih =>
      intro acc hacc l hl
      by_cases hb : isLineBreak c = true
      · rw [splitlinesAux_break c rest acc hb] at hl
        rcases List.mem_cons.mp hl with rfl | hl
        · exact fun x hx => hacc x (List.mem_reverse.mp hx)
        · exact ih [] (by simp) l hl
      · rw [splitlinesAux_nobreak c rest acc (by simpa using hb)] at hl
        refine ih (c :: acc) ?_ l hl
        intro x hx
        rcases List.mem_cons.mp hx with rfl | hx
        · simpa using hb
        · exact hacc x hx

theorem splitlines_noBreaks (t : List Char) : ∀ l ∈ splitlines t, noBreaks l :=
  splitlinesAux_noBreaks (normCRLF t) [] (by simp)

theorem joinNL_getLast? :
    ∀ (ls : List (List Char)) (l : List Char), ls.getLast? = some l → l ≠ [] →
      (joinNL ls).getLast? = l.getLast? := by
  intro ls
  induction ls with
  | nil => intro l h; simp at h
  | cons l0 ls0 ih =>
      intro l hl hne
      cases ls0 with
      | nil =>
          simp only [List.getLast?_singleton, Option.some.injEq] at hl
          subst hl
          rfl
      | cons l1 ls1 =>
          rw [List.getLast?_cons_cons] at hl
          have hjoin : (joinNL (l1 :: ls1)).getLast? = l.getLast? := ih l hl hne
          have hjne : joinNL (l1 :: ls1) ≠ [] := by
            intro hh
            rw [hh] at hjoin
            have : l.getLast?.isSome := List.getLast?_isSome.mpr hne
            rw [← hjoin] at this
            simp at this
          rw [joinNL_cons l0 (l1 :: ls1) (by simp),
            show l0 ++ '\n' :: joinNL (l1 :: ls1) = (l0 ++ ['\n']) ++ joinNL (l1 :: ls1) by simp,
            List.getLast?_append]
          rw [hjoin]
          have : l.getLast?.isSome := List.getLast?_isSome.mpr hne
          cases hcase : l.getLast? with
          | none => rw [hcase] at this; simp at this
          | some c => rfl

theorem joinNL_head? (l : List Char) (ls : List (List Char)) (hl : l ≠ []) :
    (joinNL (l :: ls)).head? = l.head? := by
  cases ls with
  | nil => rfl
  | cons l1 ls1 =>
      rw [joinNL_cons l (l1 :: ls1) (by simp)]
      cases l with
      | nil => exact absurd rfl hl
      | cons c t => rfl

theorem head?_dropWhile_not {α : Type} (p : α → Bool) :
    ∀ (l : List α) (a : α), (l.dropWhile p).head? = some a → p a = false := by
  intro l
  induction l with
  | nil => intro a h; simp [List.dropWhile] at h
  | cons b t ih =>
      intro a h
      rw [List.dropWhile_cons] at h
      split at h
      · exact ih a h
      · rename_i hb
        simp only [List.head?_cons, Option.some.injEq] at h
        rw [← h]
        simpa using hb

theorem rstrip_append_space {c : Char} (x : List Char) (hc : isPySpace c = true) :
    rstrip (x ++ [c]) = rstrip x := by
  unfold rstrip
  rw [List.reverse_append, List.reverse_singleton, List.singleton_append,
    List.dropWhile_cons, if_pos hc]

theorem dropTrailingBlank_concat_nil (ls : List (List Char)) :
    dropTrailingBlank (ls ++ [[]]) = dropTrailingBlank ls := by
  unfold dropTrailingBlank
  rw [List.reverse_append, List.reverse_singleton, List.singleton_append,
    List.dropWhile_cons, if_pos (by rfl)]

theorem dropTrailingBlank_concat_ne (ls : List (List Char)) (l : List Char) (hl : l ≠ []) :
    dropTrailingBlank (ls ++ [l]) = ls ++ [l] := by
  unfold dropTrailingBlank
  rw [List.reverse_append, List.reverse_singleton, List.singleton_append,
    List.dropWhile_cons, if_neg (by simp [hl]), List.reverse_cons,
    List.reverse_reverse]

theorem mem_dropTrailingBlank {x : List Char} {ls : List (List Char)}
    (h : x ∈ dropTrailingBlank ls) : x ∈ ls := by
  unfold dropTrailingBlank at h
  rw [List.mem_reverse] at h
  exact List.mem_reverse.mp
    (List.Sublist.mem h (List.dropWhile_sublist (fun l : List Char => l.isEmpty)))

theorem dropTrailingBlank_getLast {ls : List (List Char)} {l : List Char}
    (h : (dropTrailingBlank ls).getLast? = some l) : l ≠ [] := by
  unfold dropTrailingBlank at h
  rw [List.getLast?_reverse] at h
  have := head?_dropWhile_not (fun l : List Char => l.isEmpty) ls.reverse l h
  simpa using this

theorem dropTrailingBlank_eq_self {ls : List (List Char)}
    (h : ls.getLast? ≠ some []) : dropTrailingBlank ls = ls := by
  unfold dropTrailingBlank
  cases hr : ls.reverse with
  | nil =>
      have : ls = [] := by simpa using congrArg List.reverse hr
      subst this
      rfl
  | cons hd tl =>
      have hhd : hd ≠ [] := by
        intro hh
        subst hh
        apply h
        rw [← List.head?_reverse, hr]
        rfl
      rw [List.dropWhile_cons, if_neg (by simp [hhd]), ← hr, List.reverse_reverse]

theorem rstrip_joinNL :
    ∀ ls : List (List Char), (∀ l ∈ ls, rstrip l = l) →
      rstrip (joinNL ls) = joinNL (dropTrailingBlank ls) := by
  intro ls
  induction ls using List.reverseRecOn with
  | nil => intro _; rfl
  | append_singleton ls l ih =>
      intro h
      by_cases hl : l = []
      · subst hl
        by_cases hls : ls = []
        · subst hls; rfl
        · rw [joinNL_concat ls [] hls,
            show ('\n' :: ([] : List Char)) = ['\n'] from rfl,
            rstrip_append_space (joinNL ls) (by decide),
            ih (fun x hx => h x (by simp [hx])), dropTrailingBlank_concat_nil]
      · rw [dropTrailingBlank_concat_ne ls l hl, rstrip_eq_self_iff]
        intro c hc
        have hg : (joinNL (ls ++ [l])).getLast? = l.getLast? :=
          joinNL_getLast? (ls ++ [l]) l (List.getLast?_concat ls) hl
        rw [hg] at hc
        exact (rstrip_eq_self_iff l).mp (h l (by simp)) c hc

theorem lstrip_append_all (l : List Char) (t : List Char)
    (h : ∀ c ∈ l, isPySpace c = true) : lstrip (l ++ t) = lstrip t := by
  induction l with
  | nil => rfl
  | cons c l' ih =>
      rw [List.cons_append]
      unfold lstrip
      rw [List.dropWhile_cons, if_pos (h c (by simp))]
      exact ih (fun x hx => h x (by simp [hx]))

theorem lstrip_append_not_all (l : List Char) (t : List Char)
    (h : ¬ ∀ c ∈ l, isPySpace c = true) : lstrip (l ++ t) = lstrip l ++ t := by
  induction l with
  | nil => exact absurd (by simp) h
  | cons c l' ih =>
      by_cases hc : isPySpace c = true
      · have h' : ¬ ∀ x ∈ l', isPySpace x = true := by
          intro hall
          apply h
          intro x hx
          rcases List.mem_cons.mp hx with rfl | hx
          · exact hc
          · exact hall x hx
        rw [List.cons_append]
        unfold lstrip
        rw [List.dropWhile_cons, if_pos hc, List.dropWhile_cons, if_pos hc]
        exact ih h'
      · rw [List.cons_append]
        unfold lstrip
        rw [List.dropWhile_cons, if_neg (by simp [hc]),
          List.dropWhile_cons, if_neg (by simp [hc]), List.cons_append]

theorem lstripLines_cons_pos {l : List Char} (rest : List (List Char))
    (hall : l.all isPySpace = true) : lstripLines (l :: rest) = lstripLines rest := by
  unfold lstripLines
  simp only [List.dropWhile_cons]
  rw [if_pos hall]

theorem lstripLines_cons_neg {l : List Char} (rest : List (List Char))
    (hall : ¬ l.all isPySpace = true) : lstripLines (l :: rest) = lstrip l :: rest := by
  unfold lstripLines
  simp only [List.dropWhile_cons]
  rw [if_neg hall]

theorem lstrip_joinNL : ∀ ls : List (List Char), lstrip (joinNL ls) = joinNL (lstripLines ls) := by
  intro ls
  induction ls with
  | nil => rfl
  | cons l rest ih =>
      by_cases hall : l.all isPySpace = true
      · have hall' : ∀ c ∈ l, isPySpace c = true := by
          simpa [List.all_eq_true] using hall
        rw [lstripLines_cons_pos rest hall]
        cases rest with
        | nil =>
            rw [show joinNL [l] = l from rfl, (lstrip_eq_nil_iff l).mpr hall']
            rfl
        | cons l1 rest1 =>
            rw [joinNL_cons l (l1 :: rest1) (by simp), lstrip_append_all l _ hall',
              show lstrip ('\n' :: joinNL (l1 :: rest1)) = lstrip (joinNL (l1 :: rest1)) from by
                unfold lstrip
                rw [List.dropWhile_cons, if_pos (by decide)],
              ih]
      · rw [lstripLines_cons_neg rest hall]
        cases rest with
        | nil => rfl
        | cons l1 rest1 =>
            rw [joinNL_cons l (l1 :: rest1) (by simp),
              lstrip_append_not_all l _ (by simpa [List.all_eq_true] using hall),
              joinNL_cons (lstrip l) (l1 :: rest1) (by simp)]

theorem map_eq_self_of {α : Type} (l : List α) (f : α → α) (h : ∀ a ∈ l, f a = a) :
    l.map f = l := by
  induction l with
  | nil => rfl
  | cons a t ih => simp [h a (by simp), ih (fun x hx => h x (by simp [hx]))]

theorem mem_of_mem_dropWhile {α : Type} {p : α → Bool} {a : α} {l : List α}
    (h : a ∈ l.dropWhile p) : a ∈ l :=
  List.Sublist.mem h (List.dropWhile_sublist p)

theorem dropTrailingBlank_head {ls : List (List Char)} {h : List Char}
    (hh : (dropTrailingBlank ls).head? = some h) : ls.head? = some h := by
  obtain ⟨t, ht⟩ := List.dropWhile_suffix (l := ls.reverse) (fun l : List Char => l.isEmpty)
  have hls : ls = dropTrailingBlank ls ++ t.reverse := by
    unfold dropTrailingBlank
    rw [← List.reverse_append, ht, List.reverse_reverse]
  cases hdw : dropTrailingBlank ls with
  | nil => rw [hdw] at hh; simp at hh
  | cons a rest =>
      rw [hdw] at hh
      simp only [List.head?_cons, Option.some.injEq] at hh
      subst hh
      rw [hls, hdw]
      rfl

theorem lstripLines_view (ms : List (List Char)) :
    lstripLines ms = [] ∨
      ∃ l0 rest, ms.dropWhile (fun l => l.all isPySpace) = l0 :: rest ∧
        lstripLines ms = lstrip l0 :: rest ∧ l0.all isPySpace = false := by
  cases hdw : ms.dropWhile (fun l => l.all isPySpace) with
  | nil =>
      left
      unfold lstripLines
      rw [hdw]
  | cons l0 rest =>
      right
      refine ⟨l0, rest, rfl, ?_, ?_⟩
      · unfold lstripLines
        rw [hdw]
      · have := head?_dropWhile_not (fun l : List Char => l.all isPySpace) ms l0
          (by rw [hdw]; rfl)
        simpa using this

theorem not_all_space_of_lstripped {l : List Char} (h : lstrip l = l) (hne : l ≠ []) :
    l.all isPySpace = false := by
  cases l with
  | nil => exact absurd rfl hne
  | cons c t =>
      have hc : isPySpace c = false :=
        (lstrip_eq_self_iff (c :: t)).mp h c rfl
      refine Bool.eq_false_iff.mpr ?_
      simp only [ne_eq, List.all_eq_true]
      intro hall
      have h2 := hall c (List.mem_cons_self c t)
      rw [h2] at hc
      simp at hc

theorem normal_lines_facts (ms : List (List Char))
    (f1 : ∀ m ∈ ms, rstrip m = m)
    (f2 : ∀ m ∈ ms, isFenceLine m = false)
    (f3 : ∀ m ∈ ms, noBreaks m) :
    (∀ m ∈ dropTrailingBlank (lstripLines ms), rstrip m = m) ∧
    (∀ m ∈ dropTrailingBlank (lstripLines ms), isFenceLine m = false) ∧
    (∀ m ∈ dropTrailingBlank (lstripLines ms), noBreaks m) ∧
    (∀ l, (dropTrailingBlank (lstripLines ms)).getLast? = some l → l ≠ []) ∧
    (∀ h, (dropTrailingBlank (lstripLines ms)).head? = some h →
      lstrip h = h ∧ h ≠ []) := by
  have g1 : ∀ m ∈ lstripLines ms, rstrip m = m := by
    rcases lstripLines_view ms with hv | ⟨l0, rest, hdw, hv, _⟩
    · rw [hv]; intro m hm; simp at hm
    · rw [hv]
      intro m hm
      rcases List.mem_cons.mp hm with rfl | hm
      · exact rstrip_lstrip_of_rstripped
          (f1 l0 (mem_of_mem_dropWhile (hdw ▸ List.mem_cons_self l0 rest)))
      · exact f1 m (mem_of_mem_dropWhile (hdw ▸ List.mem_cons_of_mem l0 hm))
  have g2 : ∀ m ∈ lstripLines ms, isFenceLine m = false := by
    rcases lstripLines_view ms with hv | ⟨l0, rest, hdw, hv, _⟩
    · rw [hv]; intro m hm; simp at hm
    · rw [hv]
      intro m hm
      rcases List.mem_cons.mp hm with rfl | hm
      · rw [isFenceLine_lstrip]
        exact f2 l0 (mem_of_mem_dropWhile (hdw ▸ List.mem_cons_self l0 rest))
      · exact f2 m (mem_of_mem_dropWhile (hdw ▸ List.mem_cons_of_mem l0 hm))
  have g3 : ∀ m ∈ lstripLines ms, noBreaks m := by
    rcases lstripLines_view ms with hv | ⟨l0, rest, hdw, hv, _⟩
    · rw [hv]; intro m hm; simp at hm
    · rw [hv]
      intro m hm
      rcases List.mem_cons.mp hm with rfl | hm
      · intro c hc
        exact f3 l0 (mem_of_mem_dropWhile (hdw ▸ List.mem_cons_self l0 rest)) c
          (mem_of_mem_lstrip hc)
      · exact f3 m (mem_of_mem_dropWhile (hdw ▸ List.mem_cons_of_mem l0 hm))
  have ghead : ∀ h, (lstripLines ms).head? = some h → lstrip h = h ∧ h ≠ [] := by
    rcases lstripLines_view ms with hv | ⟨l0, rest, hdw, hv, hall⟩
    · rw [hv]; intro h hh; simp at hh
    · rw [hv]
      intro h hh
      simp only [List.head?_cons, Option.some.injEq] at hh
      subst hh
      constructor
      · exact lstrip_idem l0
      · intro hnil
        have : ∀ c ∈ l0, isPySpace c = true := (lstrip_eq_nil_iff l0).mp hnil
        rw [show l0.all isPySpace = true from List.all_eq_true.mpr (by simpa using this)]
          at hall
        simp at hall
  refine ⟨fun m hm => g1 m (mem_dropTrailingBlank hm),
    fun m hm => g2 m (mem_dropTrailingBlank hm),
    fun m hm => g3 m (mem_dropTrailingBlank hm),
    fun l hl => dropTrailingBlank_getLast hl,
    fun h hh => ghead h (dropTrailingBlank_head hh)⟩

theorem strip_fences_normal (x : List Char) :
    strip_fences x = joinNL (dropTrailingBlank (lstripLines
      (((splitlines x).filter (fun l => !(isFenceLine l))).map rstrip))) := by
  have f1 : ∀ m ∈ ((splitlines x).filter (fun l => !(isFenceLine l))).map rstrip,
      rstrip m = m := by
    intro m hm
    rcases List.mem_map.mp hm with ⟨l, _, rfl⟩
    exact rstrip_idem l
  have g1 : ∀ m ∈ lstripLines (((splitlines x).filter (fun l => !(isFenceLine l))).map rstrip),
      rstrip m = m := by
    rcases lstripLines_view (((splitlines x).filter (fun l => !(isFenceLine l))).map rstrip)
      with hv | ⟨l0, rest, hdw, hv, _⟩
    · rw [hv]; intro m hm; simp at hm
    · rw [hv]
      intro m hm
      rcases List.mem_cons.mp hm with rfl | hm
      · exact rstrip_lstrip_of_rstripped
          (f1 l0 (mem_of_mem_dropWhile (hdw ▸ List.mem_cons_self l0 rest)))
      · exact f1 m (mem_of_mem_dropWhile (hdw ▸ List.mem_cons_of_mem l0 hm))
  show rstrip (lstrip (joinNL _)) = _
  rw [lstrip_joinNL, rstrip_joinNL _ g1]

theorem strip_fences_of_normal (ns : List (List Char))
    (h1 : ∀ m ∈ ns, rstrip m = m)
    (h2 : ∀ m ∈ ns, isFenceLine m = false)
    (h3 : ∀ m ∈ ns, noBreaks m)
    (h4 : ∀ l, ns.getLast? = some l → l ≠ [])
    (h5 : ∀ h, ns.head? = some h → lstrip h = h ∧ h ≠ []) :
    strip_fences (joinNL ns) = joinNL ns := by
  have hlast : ns.getLast? ≠ some [] := fun hh => h4 [] hh rfl
  unfold strip_fences
  rw [splitlines_joinNL ns h3 hlast,
    List.filter_eq_self.mpr (fun m hm => by simp [h2 m hm]),
    map_eq_self_of ns rstrip h1]
  show rstrip (lstrip (joinNL ns)) = joinNL ns
  have hlsl : lstripLines ns = ns := by
    cases ns with
    | nil => rfl
    | cons h rest =>
        have hh := h5 h rfl
        rw [lstripLines_cons_neg rest
          (by simp [not_all_space_of_lstripped hh.1 hh.2]), hh.1]
  rw [lstrip_joinNL, hlsl, rstrip_joinNL ns h1, dropTrailingBlank_eq_self hlast]

theorem strip_fences_idem (x : List Char) :
    strip_fences (strip_fences x) = strip_fences x := by
  have f1 : ∀ m ∈ ((splitlines x).filter (fun l => !(isFenceLine l))).map rstrip,
      rstrip m = m := by
    intro m hm
    rcases List.mem_map.mp hm with ⟨l, _, rfl⟩
    exact rstrip_idem l
  have f2 : ∀ m ∈ ((splitlines x).filter (fun l => !(isFenceLine l))).map rstrip,
      isFenceLine m = false := by
    intro m hm
    rcases List.mem_map.mp hm with ⟨l, hl, rfl⟩
    rw [isFenceLine_rstrip]
    have := (List.mem_filter.mp hl).2
    simpa using this
  have f3 : ∀ m ∈ ((splitlines x).filter (fun l => !(isFenceLine l))).map rstrip,
      noBreaks m := by
    intro m hm
    rcases List.mem_map.mp hm with ⟨l, hl, rfl⟩
    intro c hc
    exact splitlines_noBreaks x l (List.mem_filter.mp hl).1 c (mem_of_mem_rstrip hc)
  obtain ⟨n1, n2, n3, n4, n5⟩ := normal_lines_facts _ f1 f2 f3
  calc strip_fences (strip_fences x)
      = strip_fences (joinNL (dropTrailingBlank (lstripLines
          (((splitlines x).filter (fun l => !(isFenceLine l))).map rstrip)))) := by
        rw [strip_fences_normal x]
    _ = joinNL (dropTrailingBlank (lstripLines
          (((splitlines x).filter (fun l => !(isFenceLine l))).map rstrip))) :=
        strip_fences_of_normal _ n1 n2 n3 n4 n5
    _ = strip_fences x := (strip_fences_normal x).symm

/-- Claim C4 counterexample: the input `"  a"` contains no fence line, and
the claim describes the output as each line right-trimmed and surrounding
blank lines stripped but otherwise unchanged — that is, `"  a"` — yet
`strip_fences` returns `"a"`: the final `strip()` also removes leading
whitespace of the first line. -/
theorem C4_counterexample :
    (splitlines "  a".toList).all (fun l => !(isFenceLine l)) = true ∧
    strip_fences "  a".toList ≠ clean_spec_trimmed "  a".toList ∧
    strip_fences "  a".toList = "a".toList ∧
    clean_spec_trimmed "  a".toList = "  a".toList := by decide

/-- Claim C4 (amended): `clean` is idempotent —
`clean (clean x) = clean x` for every input; and an input containing no
fence lines is returned with its lines each right-trimmed, joined with a
newline, and the leading and trailing whitespace of the whole joined text
stripped (which strips surrounding blank lines, and also leading whitespace
of the first remaining line). -/
theorem C4_clean_idempotent_amended :
    (∀ x : List Char, strip_fences (strip_fences x) = strip_fences x) ∧
    (∀ x : List Char, (splitlines x).all (fun l => !(isFenceLine l)) = true →
      strip_fences x = pyStrip (joinNL ((splitlines x).map rstrip))) := by
  refine ⟨strip_fences_idem, fun x hx => ?_⟩
  unfold strip_fences
  rw [List.filter_eq_self.mpr (List.all_eq_true.mp hx)]

/-- Witness for claim C4's amended theorem at concrete inputs. -/
theorem C4_clean_idempotent_amended_witness :
    strip_fences (strip_fences " x\n\nb ".toList) = strip_fences " x\n\nb ".toList ∧
    strip_fences "  a".toList = pyStrip (joinNL ((splitlines "  a".toList).map rstrip)) :=
  ⟨C4_clean_idempotent_amended.1 " x\n\nb ".toList,
   C4_clean_idempotent_amended.2 "  a".toList (by decide)⟩

end Shellmando
